import Mathlib

/-
Verification of the string-merge core of beeper/matrix-alertmanager
(src/utils.js: segmentString, diffSegmented, mergeStrings).

Strings are modelled as `List Char`; a thin `String`-level wrapper `merge`
mirrors the exported `mergeStrings(strings)` operation.  JavaScript runtime
failures that the code can actually hit (reading a property of `undefined`)
are modelled as the explicit error `MergeError.typeError`.
-/

namespace AlertMerge

/-- Word-class test of the tokenizer regex `/[a-z0-9-]+|[^a-z0-9-]+/gi`:
ASCII letters (either case, because of the `i` flag), digits, and hyphen. -/
def isWordChar (c : Char) : Bool :=
  (('a' ≤ c) && (c ≤ 'z')) || (('A' ≤ c) && (c ≤ 'Z')) ||
  (('0' ≤ c) && (c ≤ '9')) || (c = '-')

/-- Accumulating worker for `segmentString`: `cur` is the reversed run being
built, `cls` its character class. -/
def segmentAux (cls : Bool) (cur : List Char) : List Char → List (List Char)
  | [] => [cur.reverse]
  | c :: cs =>
    if isWordChar c = cls then segmentAux cls (c :: cur) cs
    else cur.reverse :: segmentAux (isWordChar c) [c] cs

/-- `segmentString` (src/utils.js line 3): splits a string into maximal runs
of word-class characters and maximal runs of non-word-class characters. -/
def segmentString : List Char → List (List Char)
  | [] => []
  | c :: cs => segmentAux (isWordChar c) [c] cs

/-- Tag of one edit of an edit script (`added` / `removed` / `unchanged`). -/
inductive Tag where
  | unchanged : Tag
  | removed : Tag
  | added : Tag
deriving DecidableEq

def isAdded : Tag → Bool
  | Tag.added => true
  | _ => false

def isRemoved : Tag → Bool
  | Tag.removed => true
  | _ => false

/-- Modelled from the spec: length of the longest common subsequence of two
token sequences, the quantity the Sequence Differ (spec section 4.2)
optimises.  The repository delegates the diff to the external `jsdiff`
library (`jsdiff.diffArrays`), whose code is not part of this repository. -/
def lcsLenAux [DecidableEq α] (f : List α → Nat) (x : α) : List α → Nat
  | [] => 0
  | y :: r => if x = y then f r + 1 else max (f (y :: r)) (lcsLenAux f x r)

def lcsLen [DecidableEq α] : List α → List α → Nat
  | [], _ => 0
  | x :: l, r => lcsLenAux (lcsLen l) x r

/-- Modelled from the spec: the Sequence Differ (spec section 4.2), replacing
the external `jsdiff.diffArrays` call.  LCS-style array diff: matched tokens
are emitted `unchanged`; for the gaps the reference's tokens are emitted
`removed` before the candidate's `added` tokens; ties between equal-length
LCS choices are resolved deterministically in favour of consuming the
reference first. -/
def rawDiffAux [DecidableEq α] (flen : List α → Nat)
    (fdiff : List α → List (Tag × α)) (x : α) (l : List α) :
    List α → List (Tag × α)
  | [] => (x :: l).map (fun a => (Tag.removed, a))
  | y :: r =>
    if x = y then (Tag.unchanged, x) :: fdiff r
    else if lcsLenAux flen x r ≤ flen (y :: r)
      then (Tag.removed, x) :: fdiff (y :: r)
      else (Tag.added, y) :: rawDiffAux flen fdiff x l r

def rawDiff [DecidableEq α] : List α → List α → List (Tag × α)
  | [], r => r.map (fun y => (Tag.added, y))
  | x :: l, r => rawDiffAux (lcsLen l) (rawDiff l) x l r

/-- One element of an edit script as consumed by `mergeStrings`: a tag and
the concatenated character data of the run (`match.value.join("")` in
`diffSegmented`, src/utils.js line 7). -/
structure Edit where
  tag : Tag
  value : List Char
deriving DecidableEq

/-- Groups the per-token tagged output of the differ into maximal runs of
one tag, concatenating the token values, matching the component shape of
`jsdiff.diffArrays` after the `.join("")` in `diffSegmented`. -/
def groupEdits : List (Tag × List Char) → List Edit
  | [] => []
  | (t, v) :: rest =>
    match groupEdits rest with
    | [] => [⟨t, v⟩]
    | e :: es => if e.tag = t then ⟨t, v ++ e.value⟩ :: es else ⟨t, v⟩ :: e :: es

/-- `diffSegmented` (src/utils.js line 7): tokenize both strings, diff the
token arrays, and flatten each edit run's tokens into one character run. -/
def diffSegmented (left right : List Char) : List Edit :=
  groupEdits (rawDiff (segmentString left) (segmentString right))

/-- Failure modes of `mergeStrings`: the explicit `No strings to merge!`
throw, the explicit `Diff didn't cover length of original string!` throw, and
the implicit JavaScript `TypeError` from reading a property of `undefined`
(reachable at src/utils.js lines 164 and 197). -/
inductive MergeError where
  | emptyInput : MergeError
  | diffCoverageMismatch : MergeError
  | typeError : MergeError
deriving DecidableEq

/-- One step of the anchor-finder loop (src/utils.js lines 48-60): the state
is the `unchanged` set (as the list of recorded offsets) and the cursor
`ptr`.  `added` edits advance nothing; other edits advance the cursor once
per character, and `unchanged` edits also record each pre-advance cursor. -/
def unchangedStep (acc : List Nat × Nat) (e : Edit) : List Nat × Nat :=
  match e.tag with
  | Tag.added => acc
  | Tag.removed => (acc.1, acc.2 + e.value.length)
  | Tag.unchanged =>
      (acc.1 ++ (List.range e.value.length).map (fun i => acc.2 + i),
       acc.2 + e.value.length)

def unchangedPass (d : List Edit) : List Nat × Nat :=
  d.foldl unchangedStep ([], 0)

/-- Total cursor advance over an edit script: one step per character of
every non-added edit. -/
def walkCursor (d : List Edit) : Nat :=
  ((d.filter (fun e => !isAdded e.tag)).map (fun e => e.value.length)).sum

/-- The per-diff anchor-finder pass including the coverage check of
src/utils.js lines 61-63. -/
def checkedUnchanged (refLen : Nat) (d : List Edit) : Except MergeError (List Nat) :=
  if (unchangedPass d).2 = refLen then Except.ok (unchangedPass d).1
  else Except.error MergeError.diffCoverageMismatch

/-- Sequential effectful map over a list, stopping at the first error; the
shape of the per-diff `for` loops of `mergeStrings`. -/
def mapMExcept (f : α → Except ε β) : List α → Except ε (List β)
  | [] => Except.ok []
  | a :: l =>
    match f a with
    | Except.error e => Except.error e
    | Except.ok b =>
      match mapMExcept f l with
      | Except.error e => Except.error e
      | Except.ok bs => Except.ok (b :: bs)

/-- `Set.prototype.intersection`, on the element lists of the modelled sets. -/
def intersectSets (a b : List Nat) : List Nat :=
  a.filter (fun x => b.contains x)

/-- The intersection fold of src/utils.js lines 73-76: start from
`unchangedSets[0]` and intersect with every set (the first set again
included, as in the source). -/
def commonOf (sets : List (List Nat)) : List Nat :=
  sets.foldl intersectSets (sets.headD [])

/-- One step of the range scan of src/utils.js lines 84-93.  State:
`(ranges so far, rangeActive, rangeStart)`.  The JavaScript initialises
`rangeStart` to `-1` but never reads it before assigning it; the model
initialises it to `0`. -/
def rangeScanStep (common : List Nat) (st : List (Nat × Nat) × Bool × Nat)
    (ptr : Nat) : List (Nat × Nat) × Bool × Nat :=
  if common.contains ptr then
    if st.2.1 then st else (st.1, true, ptr)
  else
    if st.2.1 then (st.1 ++ [(st.2.2, ptr)], false, st.2.2) else st

/-- The anchor ranges (`unchangedRanges`) of src/utils.js lines 82-93:
scan offsets `0 .. len` inclusive. -/
def buildRanges (common : List Nat) (len : Nat) : List (Nat × Nat) :=
  ((List.range (len + 1)).foldl (rangeScanStep common) ([], false, 0)).1

/-- The varying ranges of src/utils.js lines 101-119.  The augmented list
prepends the sentinel `{start: -1, end: 0}` and appends
`{start: len, end: len+1}`; the loop pairs each sentinel/anchor range's
`end` with the next one's `start` and keeps the pairs with `start ≠ end`.
The sentinels' `-1` and `len+1` fields are never read by that loop, so the
model pairs `0 :: ends` with `starts ++ [len]` directly. -/
def varyingRangesOf (ur : List (Nat × Nat)) (len : Nat) : List (Nat × Nat) :=
  (List.zip (0 :: ur.map Prod.snd) (ur.map Prod.fst ++ [len])).filter
    (fun p => !(p.1 = p.2))

/-- One tagged character of the variant-extractor arena (src/utils.js lines
137-156): the reference offset it is pinned to, the character, and whether
it was inserted (and therefore counts at a range's end boundary). -/
structure CharEntry where
  ptr : Nat
  value : Char
  countAdjacent : Bool
deriving DecidableEq

def addedEntries (p : Nat) (v : List Char) : List CharEntry :=
  v.map (fun c => ⟨p, c, true⟩)

def unchangedEntries (p : Nat) : List Char → List CharEntry
  | [] => []
  | c :: cs => ⟨p, c, false⟩ :: unchangedEntries (p + 1) cs

/-- One step of the `chars` construction (src/utils.js lines 129-157):
`added` characters are all pinned to the current cursor without advancing
it; `unchanged` characters are pinned to successive cursor values;
`removed` characters advance the cursor without an entry. -/
def charsStep (acc : List CharEntry × Nat) (e : Edit) : List CharEntry × Nat :=
  match e.tag with
  | Tag.added => (acc.1 ++ addedEntries acc.2 e.value, acc.2)
  | Tag.removed => (acc.1, acc.2 + e.value.length)
  | Tag.unchanged => (acc.1 ++ unchangedEntries acc.2 e.value, acc.2 + e.value.length)

def charsOf (d : List Edit) : List CharEntry :=
  (d.foldl charsStep ([], 0)).1

/-- The advance loop of src/utils.js lines 167-173: drop entries while
their offset is below the range start; the flag is the `done` flag, set
when the entries run out. -/
def skipLoop (rstart : Nat) : List CharEntry → List CharEntry × Bool
  | [] => ([], true)
  | e :: rest => if e.ptr < rstart then skipLoop rstart rest else (e :: rest, false)

/-- The collection loop of src/utils.js lines 178-187: take entries while
their offset is at most the range end (inclusive-inclusive on purpose),
keeping a character when its offset is strictly inside or it counts as
adjacent inserted text; returns the collected characters, the remaining
entries, and the `done` flag. -/
def collectLoop (rend : Nat) : List CharEntry → List Char × List CharEntry × Bool
  | [] => ([], [], true)
  | e :: rest =>
    if e.ptr ≤ rend then
      match collectLoop rend rest with
      | (cs, rem, d) =>
        ((if e.ptr < rend || e.countAdjacent then [e.value] else []) ++ cs, rem, d)
    else ([], e :: rest, false)

/-- The per-diff variant-extraction loop of src/utils.js lines 161-192.
Reading `chars[idx].ptr` with the entry list exhausted (only possible when
the list is empty on entry, src/utils.js line 164) is the JavaScript
`TypeError`; the `continue` branch skips a range without pushing a part;
the `done` flag stops the whole loop. -/
def extractGo : List CharEntry → List (Nat × Nat) → Except MergeError (List (List Char))
  | _, [] => Except.ok []
  | [], _ :: _ => Except.error MergeError.typeError
  | e :: cs, r :: rs =>
    if e.ptr > r.2 then extractGo (e :: cs) rs
    else
      match skipLoop r.1 (e :: cs) with
      | (_, true) => Except.ok []
      | (chars1, false) =>
        match collectLoop r.2 chars1 with
        | (part, _, true) => Except.ok [part]
        | (part, chars2, false) =>
          match extractGo chars2 rs with
          | Except.error err => Except.error err
          | Except.ok parts => Except.ok (part :: parts)

def extractFor (vRanges : List (Nat × Nat)) (d : List Edit) :
    Except MergeError (List (List Char)) :=
  extractGo (charsOf d) vRanges

/-- Lexicographic strict order on character lists, matching the default
`Array.prototype.sort` comparison of JavaScript strings by code units. -/
def strLt : List Char → List Char → Bool
  | [], [] => false
  | [], _ :: _ => true
  | _ :: _, [] => false
  | a :: as, b :: bs => if a = b then strLt as bs else decide (a < b)

def insertSorted (x : List Char) : List (List Char) → List (List Char)
  | [] => [x]
  | y :: ys => if strLt x y then x :: y :: ys else y :: insertSorted x ys

def sortStrs (l : List (List Char)) : List (List Char) :=
  l.foldr insertSorted []

/-- JavaScript `Set` insertion: keep the first occurrence. -/
def setInsert (x : List Char) (l : List (List Char)) : List (List Char) :=
  if l.contains x then l else l ++ [x]

def setOfList (vals : List (List Char)) : List (List Char) :=
  vals.foldl (fun acc v => setInsert v acc) []

/-- The item list of one rendered bracket (src/utils.js lines 205-210): the
distinct defined variants in sorted order, followed by one empty item when
`undefined` (modelled as `none`) was added to the set — `Array.prototype.sort`
places `undefined` last and `join` renders it as the empty string. -/
def renderItems (vals : List (Option (List Char))) : List (List Char) :=
  sortStrs (setOfList (vals.filterMap id)) ++
    (if vals.any (fun v => v.isNone) then [[]] else [])

def renderBracket (vals : List (Option (List Char))) : List Char :=
  '\x7b' :: (List.intercalate [',', ' '] (renderItems vals)) ++ ['\x7d']

/-- The composer loop of src/utils.js lines 196-221, with an explicit fuel
that is strictly larger than the number of iterations the loop can make
(each iteration consumes one varying or one anchor range). -/
def composeGo (ref : List Char) (vLists : List (List (List Char))) :
    Nat → Bool → List (Nat × Nat) → List (Nat × Nat) → Nat → List (List Char)
  | 0, _, _, _, _ => []
  | _ + 1, true, [], _, _ => []
  | fuel + 1, true, _ :: vs, uRem, vIdx =>
    renderBracket (vLists.map (fun l => l.get? vIdx)) ::
      composeGo ref vLists fuel false vs uRem (vIdx + 1)
  | _ + 1, false, _, [], _ => []
  | fuel + 1, false, vRem, (s, e) :: us, vIdx =>
    (List.take (e - s) (List.drop s ref)) ::
      composeGo ref vLists fuel true vRem us vIdx

/-- The diffs of src/utils.js lines 32-35: the reference (first string)
diffed against every string, itself included. -/
def diffsOf (ref : List Char) (strs : List (List Char)) : List (List Edit) :=
  strs.map (fun s => diffSegmented ref s)

/-- The per-diff unchanged sets, as produced when every coverage check
passes. -/
def setsOf (ref : List Char) (strs : List (List Char)) : List (List Nat) :=
  (diffsOf ref strs).map (fun d => (unchangedPass d).1)

def uRangesOf (ref : List Char) (strs : List (List Char)) : List (Nat × Nat) :=
  buildRanges (commonOf (setsOf ref strs)) ref.length

def vRangesOf (ref : List Char) (strs : List (List Char)) : List (Nat × Nat) :=
  varyingRangesOf (uRangesOf ref strs) ref.length

/-- The body of `mergeStrings` for two or more strings (src/utils.js lines
24-223).  Reading `varyingRanges[0].start` with `varyingRanges` empty
(src/utils.js line 197) is the JavaScript `TypeError`. -/
def mergeMulti (ref : List Char) (strs : List (List Char)) : Except MergeError (List Char) :=
  match mapMExcept (checkedUnchanged ref.length) (diffsOf ref strs) with
  | Except.error e => Except.error e
  | Except.ok sets =>
    let uRanges := buildRanges (commonOf sets) ref.length
    let vRanges := varyingRangesOf uRanges ref.length
    match mapMExcept (extractFor vRanges) (diffsOf ref strs) with
    | Except.error e => Except.error e
    | Except.ok vLists =>
      match vRanges with
      | [] => Except.error MergeError.typeError
      | (vs, _) :: _ =>
        Except.ok (List.flatten (composeGo ref vLists
          (vRanges.length + uRanges.length + 1) (vs = 0) vRanges uRanges 0))

/-- `mergeStrings` (src/utils.js line 15): empty input throws
`No strings to merge!`; a single string is returned unchanged; otherwise
the full pipeline runs with the first string as reference. -/
def mergeStrings (strings : List (List Char)) : Except MergeError (List Char) :=
  match strings with
  | [] => Except.error MergeError.emptyInput
  | [s] => Except.ok s
  | s0 :: s1 :: rest => mergeMulti s0 (s0 :: s1 :: rest)

/-- `String`-level wrapper of `mergeStrings`. -/
def merge (strings : List String) : Except MergeError String :=
  Except.map String.mk (mergeStrings (strings.map String.data))

/-! ## Tokenizer lemmas -/

theorem segmentAux_flatten (cs : List Char) : ∀ (cls : Bool) (cur : List Char),
    (segmentAux cls cur cs).flatten = cur.reverse ++ cs := by
  induction cs with
  | nil => intro cls cur; simp [segmentAux]
  | cons c cs ih =>
      intro cls cur
      by_cases h : isWordChar c = cls
      · simp [segmentAux, h, ih]
      · simp [segmentAux, h, ih]

theorem segmentString_flatten (l : List Char) : (segmentString l).flatten = l := by
  cases l with
  | nil => rfl
  | cons c cs => simpa using segmentAux_flatten cs (isWordChar c) [c]

/-! ## Differ lemmas -/

@[simp] theorem isAdded_unchanged : isAdded Tag.unchanged = false := rfl

@[simp] theorem isAdded_removed : isAdded Tag.removed = false := rfl

@[simp] theorem isAdded_added : isAdded Tag.added = true := rfl

theorem removed_map_nonAdded [DecidableEq α] (l : List α) :
    (((l.map (fun a => (Tag.removed, a))).filter (fun p => !isAdded p.1)).map Prod.snd)
      = l := by
  induction l with
  | nil => rfl
  | cons a as ih => simpa using ih

/-- The values of the non-added entries of the raw token diff are exactly the
reference token sequence (spec section 4.2: concatenating all non-added
tokens reproduces the reference). -/
theorem rawDiffAux_nonAdded [DecidableEq α] (flen : List α → Nat)
    (fdiff : List α → List (Tag × α)) (x : α) (l : List α)
    (hf : ∀ r, (((fdiff r).filter (fun p => !isAdded p.1)).map Prod.snd) = l) :
    ∀ r, (((rawDiffAux flen fdiff x l r).filter (fun p => !isAdded p.1)).map Prod.snd)
      = x :: l := by
  intro r
  induction r with
  | nil =>
      simp only [rawDiffAux]
      exact removed_map_nonAdded (x :: l)
  | cons y r ih =>
      by_cases hxy : x = y
      · subst hxy
        simp [rawDiffAux, hf]
      · by_cases hle : lcsLenAux flen x r ≤ flen (y :: r)
        · simp [rawDiffAux, hxy, hle, hf]
        · simp only [rawDiffAux, if_neg hxy, if_neg hle]
          simpa using ih

theorem rawDiff_nonAdded [DecidableEq α] (L : List α) : ∀ R : List α,
    (((rawDiff L R).filter (fun p => !isAdded p.1)).map Prod.snd) = L := by
  induction L with
  | nil =>
      intro R
      induction R with
      | nil => rfl
      | cons y R ih => simp [rawDiff]
  | cons x l ih =>
      intro R
      exact rawDiffAux_nonAdded (lcsLen l) (rawDiff l) x l ih R

theorem walkCursor_nil : walkCursor [] = 0 := rfl

theorem walkCursor_cons (e : Edit) (d : List Edit) :
    walkCursor (e :: d) =
      (if isAdded e.tag then 0 else e.value.length) + walkCursor d := by
  by_cases h : isAdded e.tag <;> simp [walkCursor, List.filter_cons, h]

/-- Cursor walk of a raw (per-token) tagged list. -/
def rawWalk (l : List (Tag × List Char)) : Nat :=
  ((l.filter (fun p => !isAdded p.1)).map (fun p => p.2.length)).sum

theorem rawWalk_cons (t : Tag) (v : List Char) (l : List (Tag × List Char)) :
    rawWalk ((t, v) :: l) = (if isAdded t then 0 else v.length) + rawWalk l := by
  by_cases h : isAdded t <;> simp [rawWalk, List.filter_cons, h]

/-- Grouping adjacent same-tag runs does not change how far the cursor
walks. -/
theorem walkCursor_groupEdits (l : List (Tag × List Char)) :
    walkCursor (groupEdits l) = rawWalk l := by
  induction l with
  | nil => rfl
  | cons p rest ih =>
      obtain ⟨t, v⟩ := p
      rw [rawWalk_cons]
      simp only [groupEdits]
      cases hg : groupEdits rest with
      | nil =>
          rw [hg, walkCursor_nil] at ih
          dsimp only
          rw [walkCursor_cons, walkCursor_nil, ← ih]
      | cons e es =>
          rw [hg] at ih
          by_cases het : e.tag = t
          · rw [walkCursor_cons, het] at ih
            dsimp only
            rw [if_pos het, walkCursor_cons]
            dsimp only
            by_cases h : isAdded t <;>
              simp [h, List.length_append] at ih ⊢ <;> omega
          · dsimp only
            rw [if_neg het, walkCursor_cons, ih]

/-- The full edit script of a real diff walks the cursor across exactly the
reference string. -/
theorem walkCursor_diffSegmented (L R : List Char) :
    walkCursor (diffSegmented L R) = L.length := by
  have h : rawWalk (rawDiff (segmentString L) (segmentString R)) = L.length := by
    have hm :
        (((rawDiff (segmentString L) (segmentString R)).filter
          (fun p => !isAdded p.1)).map Prod.snd) = segmentString L :=
      rawDiff_nonAdded (segmentString L) (segmentString R)
    rw [rawWalk, show (fun p : Tag × List Char => p.2.length)
        = List.length ∘ Prod.snd from rfl, ← List.map_map, hm,
      ← List.length_flatten, segmentString_flatten]
  rw [diffSegmented, walkCursor_groupEdits, h]

/-! ## Anchor-finder lemmas -/

theorem unchangedPass_snd (d : List Edit) : ∀ (us : List Nat) (p : Nat),
    (List.foldl unchangedStep (us, p) d).2 = p + walkCursor d := by
  induction d with
  | nil => intro us p; simp [walkCursor_nil]
  | cons e d ih =>
      intro us p
      rw [List.foldl_cons, walkCursor_cons]
      cases h : e.tag <;> simp [unchangedStep, h, ih, isAdded] <;> omega

theorem checkedUnchanged_real (L R : List Char) :
    checkedUnchanged L.length (diffSegmented L R) =
      Except.ok (unchangedPass (diffSegmented L R)).1 := by
  have h : (unchangedPass (diffSegmented L R)).2 = L.length := by
    rw [unchangedPass, unchangedPass_snd, walkCursor_diffSegmented]
    omega
  rw [checkedUnchanged, if_pos h]

theorem stage1_ok (ref : List Char) (strs : List (List Char)) :
    mapMExcept (checkedUnchanged ref.length) (diffsOf ref strs) =
      Except.ok (setsOf ref strs) := by
  induction strs with
  | nil => rfl
  | cons s ss ih =>
      simp only [diffsOf, List.map_cons, mapMExcept, checkedUnchanged_real]
      rw [show (ss.map fun s => diffSegmented ref s) = diffsOf ref ss from rfl, ih]
      rfl

/-! ## Extractor lemmas -/

theorem skipLoop_false_ne (rstart : Nat) : ∀ (chars c1 : List CharEntry),
    skipLoop rstart chars = (c1, false) → c1 ≠ [] := by
  intro chars
  induction chars with
  | nil => intro c1 h; simp [skipLoop] at h
  | cons e rest ih =>
      intro c1 h
      by_cases hp : e.ptr < rstart
      · exact ih c1 (by rwa [skipLoop, if_pos hp] at h)
      · rw [skipLoop, if_neg hp] at h
        injection h with h1 _
        subst h1
        simp

theorem collectLoop_false_ne (rend : Nat) :
    ∀ (chars : List CharEntry) (cs : List Char) (rem : List CharEntry),
    collectLoop rend chars = (cs, rem, false) → rem ≠ [] := by
  intro chars
  induction chars with
  | nil => intro cs rem h; simp [collectLoop] at h
  | cons e rest ih =>
      intro cs rem h
      by_cases hp : e.ptr ≤ rend
      · rw [collectLoop, if_pos hp] at h
        rcases hc : collectLoop rend rest with ⟨cs2, rem2, d2⟩
        rw [hc] at h
        dsimp only at h
        injection h with _ h2
        injection h2 with h21 h22
        rw [← h21]
        exact ih cs2 rem2 (by rw [hc, h22])
      · rw [collectLoop, if_neg hp] at h
        injection h with _ h2
        injection h2 with h21 _
        subst h21
        simp

theorem extractGo_ok_of_ne_nil : ∀ (ranges : List (Nat × Nat)) (chars : List CharEntry),
    chars ≠ [] → ∃ l, extractGo chars ranges = Except.ok l := by
  intro ranges
  induction ranges with
  | nil =>
      intro chars _
      exact ⟨[], by cases chars <;> rfl⟩
  | cons r rs ih =>
      intro chars hne
      match chars with
      | e :: cs =>
        by_cases hgt : e.ptr > r.2
        · obtain ⟨l, hl⟩ := ih (e :: cs) (by simp)
          exact ⟨l, by rw [extractGo, if_pos hgt]; exact hl⟩
        · rcases hs : skipLoop r.1 (e :: cs) with ⟨c1, d1⟩
          cases d1 with
          | true => exact ⟨[], by rw [extractGo, if_neg hgt, hs]⟩
          | false =>
            rcases hcol : collectLoop r.2 c1 with ⟨part, c2, d2⟩
            cases d2 with
            | true =>
                exact ⟨[part], by rw [extractGo, if_neg hgt, hs]; dsimp only; rw [hcol]⟩
            | false =>
              have hc2 : c2 ≠ [] := collectLoop_false_ne r.2 c1 part c2 hcol
              obtain ⟨l, hl⟩ := ih c2 hc2
              exact ⟨part :: l, by
                rw [extractGo, if_neg hgt, hs]
                dsimp only
                rw [hcol]
                dsimp only
                rw [hl]⟩

theorem extractGo_error (ranges : List (Nat × Nat)) (chars : List CharEntry)
    (err : MergeError) (h : extractGo chars ranges = Except.error err) :
    err = MergeError.typeError ∧ chars = [] ∧ ranges ≠ [] := by
  cases chars with
  | nil =>
      cases ranges with
      | nil => simp [extractGo] at h
      | cons r rs =>
          rw [extractGo] at h
          injection h with h1
          exact ⟨h1.symm, rfl, by simp⟩
  | cons e cs =>
      exfalso
      obtain ⟨l, hl⟩ := extractGo_ok_of_ne_nil ranges (e :: cs) (by simp)
      rw [hl] at h
      exact Except.noConfusion h

/-! ## mapMExcept lemmas -/

theorem mapMExcept_error_exists (f : α → Except ε β) : ∀ (l : List α) (e : ε),
    mapMExcept f l = Except.error e → ∃ a ∈ l, f a = Except.error e := by
  intro l
  induction l with
  | nil => intro e h; simp [mapMExcept] at h
  | cons a as ih =>
      intro e h
      rw [mapMExcept] at h
      cases hfa : f a with
      | error e2 =>
          rw [hfa] at h
          injection h with h1
          exact ⟨a, by simp, by rw [hfa, h1]⟩
      | ok b =>
          rw [hfa] at h
          cases hm : mapMExcept f as with
          | error e2 =>
              rw [hm] at h
              injection h with h1
              obtain ⟨x, hx, hfx⟩ := ih e2 hm
              exact ⟨x, by simp [hx], by rw [hfx, h1]⟩
          | ok bs => rw [hm] at h; exact Except.noConfusion h

theorem mapMExcept_ok_mem (f : α → Except ε β) : ∀ (l : List α) (ys : List β)
    (a : α) (b : β), mapMExcept f l = Except.ok ys → a ∈ l →
    f a = Except.ok b → b ∈ ys := by
  intro l
  induction l with
  | nil => intro ys a b _ ha _; exact absurd ha (by simp)
  | cons x xs ih =>
      intro ys a b h ha hfa
      rw [mapMExcept] at h
      cases hfx : f x with
      | error e => rw [hfx] at h; exact Except.noConfusion h
      | ok bx =>
          rw [hfx] at h
          cases hm : mapMExcept f xs with
          | error e => rw [hm] at h; exact Except.noConfusion h
          | ok bs =>
              rw [hm] at h
              injection h with h1
              subst h1
              rcases List.mem_cons.mp ha with hax | hamem
              · subst hax
                rw [hfa] at hfx
                injection hfx with h2
                simp [h2]
              · exact List.mem_cons_of_mem bx (ih bs a b hm hamem hfa)

theorem mapMExcept_ok_of_all (f : α → Except ε β) : ∀ (l : List α),
    (∀ a ∈ l, ∃ b, f a = Except.ok b) → ∃ ys, mapMExcept f l = Except.ok ys := by
  intro l
  induction l with
  | nil => intro _; exact ⟨[], rfl⟩
  | cons a as ih =>
      intro hall
      obtain ⟨b, hb⟩ := hall a (by simp)
      obtain ⟨ys, hys⟩ := ih (fun x hx => hall x (by simp [hx]))
      exact ⟨b :: ys, by rw [mapMExcept, hb, hys]⟩

/-! ## Shape of the merge result -/

theorem mergeMulti_cases (ref : List Char) (strs : List (List Char)) :
    (∃ out, mergeMulti ref strs = Except.ok out) ∨
    mergeMulti ref strs = Except.error MergeError.typeError := by
  rw [mergeMulti, stage1_ok]
  dsimp only
  cases h2 : mapMExcept
      (extractFor (varyingRangesOf (buildRanges (commonOf (setsOf ref strs))
        ref.length) ref.length)) (diffsOf ref strs) with
  | error e =>
      obtain ⟨d, _, hd⟩ := mapMExcept_error_exists _ _ _ h2
      simp only [extractFor] at hd
      obtain ⟨he, -, -⟩ := extractGo_error _ _ _ hd
      right
      dsimp only
      rw [he]
  | ok vLists =>
      dsimp only
      cases hv : varyingRangesOf (buildRanges (commonOf (setsOf ref strs))
          ref.length) ref.length with
      | nil => exact Or.inr rfl
      | cons p t =>
          obtain ⟨vs, b⟩ := p
          exact Or.inl ⟨_, rfl⟩

theorem mergeStrings_nonempty_cases (s : List Char) (rest : List (List Char)) :
    (∃ out, mergeStrings (s :: rest) = Except.ok out) ∨
    mergeStrings (s :: rest) = Except.error MergeError.diffCoverageMismatch ∨
    mergeStrings (s :: rest) = Except.error MergeError.typeError := by
  cases rest with
  | nil => exact Or.inl ⟨s, rfl⟩
  | cons s1 rest2 =>
      rcases mergeMulti_cases s (s :: s1 :: rest2) with ⟨out, h⟩ | h
      · exact Or.inl ⟨out, h⟩
      · exact Or.inr (Or.inr h)

/-! ## Lemmas about the early-exit path of the extractor -/

theorem unchangedEntries_length : ∀ (v : List Char) (p : Nat),
    (unchangedEntries p v).length = v.length := by
  intro v
  induction v with
  | nil => intro p; rfl
  | cons c cs ih => intro p; simp [unchangedEntries, ih]

/-- Each edit contributes at least as many arena entries as recorded
unchanged offsets. -/
theorem unchanged_len_le_chars_len : ∀ (d : List Edit) (cs : List CharEntry)
    (us : List Nat) (p q : Nat), us.length ≤ cs.length →
    ((List.foldl unchangedStep (us, q) d).1).length ≤
      ((List.foldl charsStep (cs, p) d).1).length := by
  intro d
  induction d with
  | nil => intro cs us p q h; exact h
  | cons e d ih =>
      intro cs us p q h
      rw [List.foldl_cons, List.foldl_cons]
      cases he : e.tag with
      | added =>
          simp only [unchangedStep, charsStep, he]
          exact ih _ _ _ _ (le_trans h (by simp))
      | removed =>
          simp only [unchangedStep, charsStep, he]
          exact ih _ _ _ _ h
      | unchanged =>
          simp only [unchangedStep, charsStep, he]
          refine ih _ _ _ _ ?_
          simp [unchangedEntries_length]
          omega

theorem unchangedPass_nil_of_charsOf_nil (d : List Edit) (h : charsOf d = []) :
    (unchangedPass d).1 = [] := by
  have hle := unchanged_len_le_chars_len d [] [] 0 0 (le_refl 0)
  rw [show (List.foldl charsStep ([], 0) d).1 = charsOf d from rfl, h] at hle
  simp only [List.length_nil, Nat.le_zero] at hle
  exact List.length_eq_zero.mp hle

theorem contains_true_iff (l : List Nat) (x : Nat) :
    l.contains x = true ↔ x ∈ l := by
  simp

theorem mem_foldl_inter_init : ∀ (l : List (List Nat)) (a : List Nat) (x : Nat),
    x ∈ List.foldl intersectSets a l → x ∈ a := by
  intro l
  induction l with
  | nil => intro a x h; exact h
  | cons b l ih =>
      intro a x h
      rw [List.foldl_cons] at h
      exact (List.mem_filter.mp (ih _ _ h)).1

theorem mem_foldl_inter : ∀ (l : List (List Nat)) (a : List Nat) (x : Nat),
    x ∈ List.foldl intersectSets a l → ∀ s ∈ l, x ∈ s := by
  intro l
  induction l with
  | nil => intro a x _ s hs; exact absurd hs (by simp)
  | cons b l ih =>
      intro a x h s hs
      rcases List.mem_cons.mp hs with hsb | hs2
      · subst hsb
        have hx := mem_foldl_inter_init l _ x h
        exact (contains_true_iff s x).mp (List.mem_filter.mp hx).2
      · exact ih _ _ h s hs2

theorem commonOf_subset (sets : List (List Nat)) (x : Nat)
    (hx : x ∈ commonOf sets) : ∀ s ∈ sets, x ∈ s :=
  mem_foldl_inter sets _ x hx

theorem buildRanges_nil (len : Nat) : buildRanges [] len = [] := by
  rw [buildRanges]
  have h : ∀ (ptrs : List Nat),
      List.foldl (rangeScanStep []) ([], false, 0) ptrs = ([], false, 0) := by
    intro ptrs
    induction ptrs with
    | nil => rfl
    | cons p ps ih => rw [List.foldl_cons]; exact ih
  rw [h]

theorem varyingRangesOf_nil_zero : varyingRangesOf [] 0 = [] := rfl

theorem varyingRangesOf_nil_succ (n : Nat) :
    varyingRangesOf [] (n + 1) = [(0, n + 1)] := rfl

theorem charsStep_snd (d : List Edit) : ∀ (cs : List CharEntry) (p : Nat),
    (List.foldl charsStep (cs, p) d).2 = p + walkCursor d := by
  induction d with
  | nil => intro cs p; simp [walkCursor_nil]
  | cons e d ih =>
      intro cs p
      rw [List.foldl_cons, walkCursor_cons]
      cases h : e.tag <;> simp [charsStep, h, ih] <;> omega

theorem addedEntries_ptr (p : Nat) (v : List Char) (x : CharEntry)
    (h : x ∈ addedEntries p v) : x.ptr = p := by
  obtain ⟨c, -, hc⟩ := List.mem_map.mp h
  rw [← hc]

theorem unchangedEntries_ptr_le : ∀ (v : List Char) (p : Nat) (x : CharEntry),
    x ∈ unchangedEntries p v → x.ptr ≤ p + v.length := by
  intro v
  induction v with
  | nil => intro p x h; simp [unchangedEntries] at h
  | cons c cs ih =>
      intro p x h
      rw [unchangedEntries] at h
      rcases List.mem_cons.mp h with hx | h2
      · subst hx; simp
      · have := ih (p + 1) x h2
        simp only [List.length_cons]
        omega

theorem charsOf_ptr_le : ∀ (d : List Edit) (cs : List CharEntry) (p : Nat),
    (∀ x ∈ cs, x.ptr ≤ p) →
    ∀ x ∈ (List.foldl charsStep (cs, p) d).1,
      x.ptr ≤ (List.foldl charsStep (cs, p) d).2 := by
  intro d
  induction d with
  | nil => intro cs p h x hx; exact h x hx
  | cons e d ih =>
      intro cs p h
      rw [List.foldl_cons]
      cases he : e.tag with
      | added =>
          simp only [charsStep, he]
          refine ih _ _ ?_
          intro y hy
          rcases List.mem_append.mp hy with hyc | hya
          · exact h y hyc
          · exact le_of_eq (addedEntries_ptr p e.value y hya)
      | removed =>
          simp only [charsStep, he]
          refine ih _ _ ?_
          intro y hy
          exact le_trans (h y hy) (Nat.le_add_right p e.value.length)
      | unchanged =>
          simp only [charsStep, he]
          refine ih _ _ ?_
          intro y hy
          rcases List.mem_append.mp hy with hyc | hyu
          · exact le_trans (h y hyc) (Nat.le_add_right p e.value.length)
          · exact unchangedEntries_ptr_le e.value p y hyu

theorem charsOf_ptr_le_refLen (L R : List Char) :
    ∀ x ∈ charsOf (diffSegmented L R), x.ptr ≤ L.length := by
  intro x hx
  have h := charsOf_ptr_le (diffSegmented L R) [] 0 (by intro y hy; simp at hy) x hx
  rw [charsStep_snd, walkCursor_diffSegmented] at h
  omega

/-- Extraction over the single whole-string varying range `[0, len]` of a
non-empty entry list always yields exactly one part. -/
theorem extractGo_single_zero (len : Nat) (chars : List CharEntry)
    (hne : chars ≠ []) (hb : ∀ x ∈ chars, x.ptr ≤ len) :
    ∃ part, extractGo chars [(0, len)] = Except.ok [part] := by
  match chars with
  | e :: cs =>
    have hgt : ¬ e.ptr > (0, len).2 := by
      simp only [not_lt]
      exact hb e (by simp)
    have hskip : skipLoop 0 (e :: cs) = (e :: cs, false) := by
      rw [skipLoop, if_neg (Nat.not_lt_zero e.ptr)]
    rcases hcol : collectLoop len (e :: cs) with ⟨part, c2, d2⟩
    cases d2 with
    | true =>
        refine ⟨part, ?_⟩
        rw [extractGo, if_neg hgt]
        dsimp only
        rw [hskip]
        dsimp only
        rw [hcol]
    | false =>
        have hrec : extractGo c2 [] = Except.ok [] := by cases c2 <;> rfl
        refine ⟨part, ?_⟩
        rw [extractGo, if_neg hgt]
        dsimp only
        rw [hskip]
        dsimp only
        rw [hcol]
        dsimp only
        rw [hrec]

/-- If some diff's extraction succeeds with fewer parts than there are
varying ranges, then no diff's extraction can fail: a failing diff would
have an empty entry list, forcing the anchor set empty and a single
whole-string varying range, against which no successful extraction can be
short. -/
theorem extract_short_no_crash (ref : List Char) (strs : List (List Char))
    (d : List Edit) (l : List (List Char))
    (hd : d ∈ diffsOf ref strs)
    (hok : extractFor (vRangesOf ref strs) d = Except.ok l)
    (hshort : l.length < (vRangesOf ref strs).length) :
    ∀ d2 ∈ diffsOf ref strs,
      ∃ l2, extractFor (vRangesOf ref strs) d2 = Except.ok l2 := by
  intro d2 hd2
  by_cases hchars : charsOf d2 = []
  · exfalso
    have hvne : vRangesOf ref strs ≠ [] := by
      intro h0
      rw [h0] at hshort
      simp at hshort
    have hset : (unchangedPass d2).1 = [] :=
      unchangedPass_nil_of_charsOf_nil d2 hchars
    have hcommon : ∀ x, ¬ x ∈ commonOf (setsOf ref strs) := by
      intro x hx
      have hmem : (unchangedPass d2).1 ∈ setsOf ref strs :=
        List.mem_map_of_mem _ hd2
      have hxs := commonOf_subset _ x hx _ hmem
      rw [hset] at hxs
      simp at hxs
    have hur : uRangesOf ref strs = [] := by
      rw [uRangesOf, List.eq_nil_iff_forall_not_mem.mpr hcommon, buildRanges_nil]
    have hv : vRangesOf ref strs = [(0, ref.length)] := by
      rw [vRangesOf, hur]
      cases hlen : ref.length with
      | zero =>
          exfalso
          apply hvne
          rw [vRangesOf, hur, hlen]
          rfl
      | succ n => exact varyingRangesOf_nil_succ n
    have hl0 : l = [] := by
      rw [hv] at hshort
      simp only [List.length_cons, List.length_nil, Nat.lt_succ_iff,
        Nat.le_zero] at hshort
      exact List.length_eq_zero.mp hshort
    by_cases hcd : charsOf d = []
    · rw [extractFor, hcd, hv] at hok
      exact Except.noConfusion hok
    · obtain ⟨cand, -, hdc⟩ := List.mem_map.mp hd
      have hb : ∀ x ∈ charsOf d, x.ptr ≤ ref.length := by
        rw [← hdc]
        exact charsOf_ptr_le_refLen ref cand
      obtain ⟨part, hp⟩ := extractGo_single_zero ref.length (charsOf d) hcd hb
      rw [extractFor, hv, hp] at hok
      injection hok with h1
      rw [hl0] at h1
      exact List.noConfusion h1
  · obtain ⟨l2, hl2⟩ := extractGo_ok_of_ne_nil (vRangesOf ref strs) (charsOf d2) hchars
    exact ⟨l2, by rw [extractFor]; exact hl2⟩

/-! ## Claim theorems -/

/-- C1: for the input list `["Error on host-1", "Error on host-2"]`, merge
returns exactly the string `"Error on {host-1, host-2}"`. -/
theorem merge_error_hosts :
    merge ["Error on host-1", "Error on host-2"] =
      Except.ok ("Error on \x7bhost-1, host-2\x7d") := by rfl

/-- C2: for every string `s`, including the empty string, merge applied to
the one-element list `[s]` returns `s` unchanged. -/
theorem merge_singleton (s : String) : merge [s] = Except.ok s := rfl

/-- C3: the claim says `merge [s, s, s] = s`; the code instead reaches the
JavaScript `TypeError` at src/utils.js line 197 (`varyingRanges[0].start`
with `varyingRanges` empty), evaluated here at `s = "a"`. -/
theorem merge_identical_triple_typeError :
    merge ["a", "a", "a"] = Except.error MergeError.typeError := by rfl

/-- C4: merge applied to the empty list fails immediately with the
`EmptyInput` error and returns no value. -/
theorem merge_empty_input : merge [] = Except.error MergeError.emptyInput := rfl

/-- C5 counterexample: `merge ["abc", "abd"]` returns `"{abc, abd}"`, which
is not the claimed `"ab{c, d}"`. -/
theorem merge_abc_abd_not_split :
    merge ["abc", "abd"] = Except.ok ("\x7babc, abd\x7d") ∧
    ("\x7babc, abd\x7d" : String) ≠ ("ab\x7bc, d\x7d" : String) :=
  ⟨by rfl, by decide⟩

/-- C5 amended: because `c` and `d` belong to the same word-class token as
the shared prefix, the whole differing token `abc` / `abd` is varying, and
merge returns `"{abc, abd}"`. -/
theorem merge_abc_abd_whole_token :
    merge ["abc", "abd"] = Except.ok ("\x7babc, abd\x7d") := by rfl

/-- C6 counterexample: on the non-empty list `["a", "a"]` merge fails with
the `TypeError` of src/utils.js line 197, which is neither `EmptyInput` nor
`DiffCoverageMismatch`. -/
theorem merge_duplicate_pair_typeError :
    merge ["a", "a"] = Except.error MergeError.typeError ∧
    MergeError.typeError ≠ MergeError.emptyInput ∧
    MergeError.typeError ≠ MergeError.diffCoverageMismatch :=
  ⟨by rfl, by decide, by decide⟩

/-- C6 amended: for every non-empty list of strings, merge either returns a
string or fails with `DiffCoverageMismatch` or with the JavaScript
`TypeError` (reading a property of `undefined` in the variant extractor or
composer); `EmptyInput` occurs only for the empty list. -/
theorem merge_nonempty_trichotomy (s : String) (rest : List String) :
    (∃ r, merge (s :: rest) = Except.ok r) ∨
    merge (s :: rest) = Except.error MergeError.diffCoverageMismatch ∨
    merge (s :: rest) = Except.error MergeError.typeError := by
  rcases mergeStrings_nonempty_cases s.data (rest.map String.data) with ⟨out, h⟩ | h | h
  · exact Or.inl ⟨String.mk out, by rw [merge, List.map_cons, h]; rfl⟩
  · exact Or.inr (Or.inl (by rw [merge, List.map_cons, h]; rfl))
  · exact Or.inr (Or.inr (by rw [merge, List.map_cons, h]; rfl))

/-- C7: for every string, concatenating in order the tokens produced by the
tokenizer reconstructs the original string exactly. -/
theorem tokenizer_preserves_chars (l : List Char) :
    (segmentString l).flatten = l :=
  segmentString_flatten l

/-- C8: the per-diff anchor-finder pass raises `DiffCoverageMismatch` if and
only if walking the full edit script (advancing the cursor once per
character of every non-added edit) leaves the cursor different from the
reference string's length. -/
theorem anchorFinder_coverage_iff (d : List Edit) (refLen : Nat) :
    checkedUnchanged refLen d = Except.error MergeError.diffCoverageMismatch ↔
      walkCursor d ≠ refLen := by
  have h : (unchangedPass d).2 = walkCursor d := by
    rw [unchangedPass, unchangedPass_snd]
    omega
  by_cases hc : walkCursor d = refLen
  · rw [checkedUnchanged, if_pos (h.trans hc)]
    simp [hc]
  · rw [checkedUnchanged, if_neg (by rw [h]; exact hc)]
    simp [hc]

/-- C9: variant sets within one bracket are deduplicated and sorted:
`merge ["X is red", "X is blue", "X is red"]` yields exactly the two
variants `blue` and `red`, giving `"X is {blue, red}"`. -/
theorem merge_red_blue_dedup_sorted :
    merge ["X is red", "X is blue", "X is red"] =
      Except.ok ("X is \x7bblue, red\x7d") := by rfl

/-- C10: whenever the variant extractor ends a candidate's extraction with
fewer parts than there are varying ranges (the early-exit path), merge
still completes without error; the composer's variant values at each
missing index contain the `undefined` value (modelled as `none`), and the
rendered item list of that bracket contains the empty entry rather than
causing a failure. -/
theorem extractor_early_exit_merge_ok (ref s1 : List Char)
    (rest : List (List Char)) (d : List Edit) (l : List (List Char))
    (hd : d ∈ diffsOf ref (ref :: s1 :: rest))
    (hok : extractFor (vRangesOf ref (ref :: s1 :: rest)) d = Except.ok l)
    (hshort : l.length < (vRangesOf ref (ref :: s1 :: rest)).length) :
    (∃ out, mergeStrings (ref :: s1 :: rest) = Except.ok out) ∧
    (∀ L, mapMExcept (extractFor (vRangesOf ref (ref :: s1 :: rest)))
        (diffsOf ref (ref :: s1 :: rest)) = Except.ok L →
      ∀ i, i < (vRangesOf ref (ref :: s1 :: rest)).length → l.length ≤ i →
        none ∈ L.map (fun v => v.get? i) ∧
        ([] : List Char) ∈ renderItems (L.map (fun v => v.get? i))) := by
  constructor
  · obtain ⟨L, hL⟩ := mapMExcept_ok_of_all _ _
      (extract_short_no_crash ref (ref :: s1 :: rest) d l hd hok hshort)
    have hvne : vRangesOf ref (ref :: s1 :: rest) ≠ [] := by
      intro h0
      rw [h0] at hshort
      simp at hshort
    show ∃ out, mergeMulti ref (ref :: s1 :: rest) = Except.ok out
    rw [mergeMulti, stage1_ok]
    dsimp only
    simp only [vRangesOf, uRangesOf] at hL hvne
    rw [hL]
    dsimp only
    cases hv : varyingRangesOf
        (buildRanges (commonOf (setsOf ref (ref :: s1 :: rest))) ref.length)
        ref.length with
    | nil => exact absurd hv hvne
    | cons p t =>
        obtain ⟨vs, b⟩ := p
        exact ⟨_, rfl⟩
  · intro L hL i hi hle
    have hmem : l ∈ L := mapMExcept_ok_mem _ _ _ _ _ hL hd hok
    have hni : l.get? i = none := List.get?_eq_none.mpr hle
    have hmm : none ∈ L.map (fun v => v.get? i) := List.mem_map.mpr ⟨l, hmem, hni⟩
    refine ⟨hmm, ?_⟩
    have hany : (L.map (fun v => v.get? i)).any (fun v => v.isNone) = true := by
      rw [List.any_eq_true]
      exact ⟨none, hmm, rfl⟩
    rw [renderItems, if_pos hany]
    exact List.mem_append.mpr (Or.inr (by simp))

/-- Witness for the early-exit theorem at the concrete input
`["a b", "a"]`: the second diff's extraction stops early with zero parts
against one varying range, and merge completes, returning `"a{ b, }"`. -/
theorem extractor_early_exit_merge_ok_witness :
    (diffSegmented ("a b".data) ("a".data) ∈
        diffsOf ("a b".data) (("a b".data) :: ("a".data) :: [])) ∧
    extractFor (vRangesOf ("a b".data) (("a b".data) :: ("a".data) :: []))
        (diffSegmented ("a b".data) ("a".data)) = Except.ok [] ∧
    (([] : List (List Char)).length <
      (vRangesOf ("a b".data) (("a b".data) :: ("a".data) :: [])).length) ∧
    ((∃ out, mergeStrings (("a b".data) :: ("a".data) :: []) = Except.ok out) ∧
      (∀ L, mapMExcept
          (extractFor (vRangesOf ("a b".data) (("a b".data) :: ("a".data) :: [])))
          (diffsOf ("a b".data) (("a b".data) :: ("a".data) :: [])) = Except.ok L →
        ∀ i, i < (vRangesOf ("a b".data) (("a b".data) :: ("a".data) :: [])).length →
          ([] : List (List Char)).length ≤ i →
          none ∈ L.map (fun v => v.get? i) ∧
          ([] : List Char) ∈ renderItems (L.map (fun v => v.get? i)))) :=
  ⟨by decide, by rfl, by decide,
    extractor_early_exit_merge_ok ("a b".data) ("a".data) []
      (diffSegmented ("a b".data) ("a".data)) []
      (by decide) (by rfl) (by decide)⟩

end AlertMerge
